import Mathlib

/-
Verification of the forkfolio semantic-matching subsystem: a shallow embedding
of the bounded TTL/LRU cache (`app/core/cache.py`), the deduplication gate
(`app/services/recipe_dedupe_impl.py`), the embedding call
(`app/services/llm_generation_service.py`), and the search reranking helpers
(`app/api/v1/helpers/recipe_search.py`).  Python floats are modelled as
rationals, Python `None` as `Option`, dict rows as structures with optional
fields, and the external providers (vector store, LLM judge, embedding
endpoint) as explicit oracle parameters.
-/

set_option linter.unusedVariables false

/-- Clamp a rational to the interval `[0, 1]`; models the Python idiom
`min(max(x, 0.0), 1.0)` used throughout `recipe_search.py`. -/
def clamp01 (x : ℚ) : ℚ := min (max x 0) 1

/-- Row returned by `RecipeManager.find_nearest_embedding`: the nearest stored
embedding's recipe id and its cosine distance (the SQL may report `NULL`). -/
structure NearestHit where
  recipe_id : String
  distance : Option ℚ
deriving DecidableEq

/-- The three dedupe settings produced by `_get_dedupe_settings` and stored on
`RecipeDedupeServiceImpl`: `distance_threshold` (the loose threshold),
`strict_duplicate_threshold` (the strict threshold) and the embedding type. -/
structure DedupeSettings where
  distance_threshold : ℚ
  strict_duplicate_threshold : ℚ
  embedding_type : String
deriving DecidableEq

/-- `_get_dedupe_settings` of `recipe_dedupe_impl.py`: each value is read from
the config file when present, otherwise the module default is used
(`_DEFAULT_DISTANCE_THRESHOLD = 0.3`,
`_DEFAULT_STRICT_DUPLICATE_DISTANCE_THRESHOLD = 0.05`,
`_DEFAULT_EMBEDDING_TYPE = "title_ingredients"`).  No relation between the two
thresholds is checked. -/
def _get_dedupe_settings (cfg_distance cfg_strict : Option ℚ)
    (cfg_type : Option String) : DedupeSettings :=
  { distance_threshold := cfg_distance.getD (3/10)
    strict_duplicate_threshold := cfg_strict.getD (1/20)
    embedding_type := cfg_type.getD "title_ingredients" }

/-- `RecipeDedupeServiceImpl.__init__`: stores the tuple returned by
`_get_dedupe_settings` on the instance unchanged.  The constructor has no other
effect on the settings and no error path. -/
def dedupe_service_init (cfg_distance cfg_strict : Option ℚ)
    (cfg_type : Option String) : DedupeSettings :=
  _get_dedupe_settings cfg_distance cfg_strict cfg_type

/-- The `DedupeDecision` pydantic model: `decision` is `"duplicate"` or
`"distinct"`, with a free-form reason. -/
structure DedupeDecision where
  decision : String
  reason : String
deriving DecidableEq

/-- The full existing recipe fetched by `RecipeManager.get_full_recipe` (only
the fields used by the dedupe prompt are modelled). -/
structure ExistingRecipe where
  title : String
  ingredients : List String
  instructions : List String
deriving DecidableEq

/-- Oracles seen by one `find_duplicate` call: the embedding computed for the
candidate's title+ingredients text, the vector store's nearest hit, the recipe
store lookup, and the judgment provider's reply
`(decision | None, error | None)` as returned by
`make_llm_call_structured_output_generic` (which converts raised exceptions
into `(None, error_message)`). -/
structure DedupeEnv where
  embedding : List ℚ
  nearest : Option NearestHit
  fullRecipe : String → Option ExistingRecipe
  judge : Option DedupeDecision × Option String

/-- Observable outcome of `RecipeDedupeServiceImpl.find_duplicate`, plus an
instrumentation counter recording how many times the judgment provider was
invoked on this call. -/
structure FindDuplicateResult where
  is_duplicate : Bool
  existing_id : Option String
  embedding : List ℚ
  judge_calls : ℕ
deriving DecidableEq

/-- Python truthiness of an optional string: `None` and `""` are falsy.  Used
for `if error or not decision:` and `if rerank_mode:`. -/
def strTruthy : Option String → Bool
  | none => false
  | some s => !(s == "")

/-- `RecipeDedupeServiceImpl.find_duplicate`.  Mirrors the source branch by
branch: no nearest hit → distinct; `NULL` distance → distinct; distance at or
below the strict threshold → automatic duplicate; distance above the loose
`distance_threshold` → automatic distinct; otherwise fetch the full existing
recipe (missing → distinct) and consult the judgment provider, failing open to
distinct on a truthy error or a null decision. -/
def find_duplicate (s : DedupeSettings) (env : DedupeEnv) : FindDuplicateResult :=
  match env.nearest with
  | none => ⟨false, none, env.embedding, 0⟩
  | some nearest =>
    match nearest.distance with
    | none => ⟨false, none, env.embedding, 0⟩
    | some d =>
      if d ≤ s.strict_duplicate_threshold then
        ⟨true, some nearest.recipe_id, env.embedding, 0⟩
      else if s.distance_threshold < d then
        ⟨false, none, env.embedding, 0⟩
      else
        match env.fullRecipe nearest.recipe_id with
        | none => ⟨false, none, env.embedding, 0⟩
        | some _ =>
          let decision := env.judge.1
          let error := env.judge.2
          if strTruthy error || decision.isNone then
            ⟨false, none, env.embedding, 1⟩
          else
            match decision with
            | some dec =>
              if dec.decision = "duplicate" then
                ⟨true, some nearest.recipe_id, env.embedding, 1⟩
              else
                ⟨false, none, env.embedding, 1⟩
            | none => ⟨false, none, env.embedding, 1⟩

/-- `make_embedding` of `llm_generation_service.py`, with the transport
modelled as a `provider` oracle and an instrumentation counter of provider
invocations.  The source resolves the model name, builds a client and calls
`client.embeddings.create` on every invocation; unlike
`make_llm_call_text_generation` and `make_llm_call_structured_output_generic`
it consults neither `llm_text_cache` nor `llm_structured_cache`. -/
def make_embedding (provider : String → List ℚ) (provider_calls : ℕ)
    (text : String) : List ℚ × ℕ :=
  (provider text, provider_calls + 1)

/-- Two consecutive `make_embedding` calls on the same text, starting from a
fresh provider-invocation counter; returns the final counter. -/
def make_embedding_twice (provider : String → List ℚ) (text : String) : ℕ :=
  let first := make_embedding provider 0 text
  let second := make_embedding provider first.2 text
  second.2

/-- `_CacheEntry` of `app/core/cache.py`. -/
structure CacheEntry (V : Type) where
  expires_at : ℚ
  value : V
deriving DecidableEq

/-- `TTLCache` state: the configured default TTL, the capacity, and the
`OrderedDict` contents as a key/entry list (head = oldest position). -/
structure TTLCache (V : Type) where
  ttl_seconds : ℚ
  max_items : ℤ
  data : List (String × CacheEntry V)
deriving DecidableEq

/-- `self._data[key] = entry` on an `OrderedDict`: overwrite in place when the
key is present (its position is kept), otherwise append at the tail. -/
def odAssign {V : Type} (data : List (String × CacheEntry V)) (key : String)
    (e : CacheEntry V) : List (String × CacheEntry V) :=
  if data.any (fun p => p.1 == key) then
    data.map (fun p => if p.1 == key then (key, e) else p)
  else
    data ++ [(key, e)]

/-- `self._data.move_to_end(key)`: the entry for `key` moves to the tail,
every other entry keeps its relative order. -/
def odMoveToEnd {V : Type} (data : List (String × CacheEntry V))
    (key : String) : List (String × CacheEntry V) :=
  data.filter (fun p => !(p.1 == key)) ++ data.filter (fun p => p.1 == key)

/-- `TTLCache._prune`: drop every entry with `expires_at <= now`, then pop from
the head while the size exceeds `max_items` (the `while` loop removes exactly
`size - max_items` head entries; it is only reached from `set`, where
`max_items > 0` is guaranteed by the enabled check). -/
def TTLCache.prune {V : Type} (c : TTLCache V) (now : ℚ) : TTLCache V :=
  let alive := c.data.filter (fun p => !(decide (p.2.expires_at ≤ now)))
  { c with data := alive.drop (alive.length - c.max_items.toNat) }

/-- `TTLCache.set`: no-op when the cache is disabled (`ttl_seconds <= 0` or
`max_items <= 0`) or when the effective TTL is non-positive; otherwise insert
the entry at the tail and prune. -/
def TTLCache.set {V : Type} (c : TTLCache V) (now : ℚ) (key : String)
    (value : V) (ttl_override : Option ℚ) : TTLCache V :=
  if 0 < c.ttl_seconds ∧ 0 < c.max_items then
    let ttl := ttl_override.getD c.ttl_seconds
    if ttl ≤ 0 then c
    else
      let entry : CacheEntry V := ⟨now + ttl, value⟩
      let d1 := odAssign c.data key entry
      let d2 := odMoveToEnd d1 key
      TTLCache.prune { c with data := d2 } now
  else c

/-- `TTLCache.get`: absent when disabled or missing; an expired entry is
removed and reported absent; a live hit moves its entry to the tail (the
recency bump) and returns the value. -/
def TTLCache.get {V : Type} (c : TTLCache V) (now : ℚ) (key : String) :
    Option V × TTLCache V :=
  if 0 < c.ttl_seconds ∧ 0 < c.max_items then
    match c.data.find? (fun p => p.1 == key) with
    | none => (none, c)
    | some p =>
      if p.2.expires_at ≤ now then
        (none, { c with data := c.data.filter (fun q => !(q.1 == key)) })
      else
        (some p.2.value, { c with data := odMoveToEnd c.data key })
  else (none, c)

/-- Fold a sequence of `set` calls (default TTL) over the cache, all at the
same clock reading. -/
def insertAll {V : Type} (c : TTLCache V) (now : ℚ)
    (kvs : List (String × V)) : TTLCache V :=
  kvs.foldl (fun acc kv => acc.set now kv.1 kv.2 none) c

/-- The whitespace characters recognised by Python `str.split()` /
`str.strip()` for ASCII text. -/
def isSpaceChar (c : Char) : Bool :=
  c == ' ' || c == '\t' || c == '\n' || c == '\r' || c == '\x0b' || c == '\x0c'

/-- One step of the run scanner: characters satisfying `keep` extend the
current run; any other character closes it. -/
def runStep (keep : Char → Bool) (c : Char)
    (p : List Char × List (List Char)) : List Char × List (List Char) :=
  if keep c then (c :: p.1, p.2)
  else ([], if p.1.isEmpty then p.2 else p.1 :: p.2)

/-- Maximal runs of characters satisfying `keep`, left to right; characters
failing `keep` act as separators and never appear in the output.
`runsP (fun c => !(isSpaceChar c))` models Python `str.split()` (with the
leading `strip()` subsumed), and `runsP isLowerAlpha` models
`re.findall("[a-z]+", s)`.  `runsCore` is the right fold carrying
`(current run, completed runs to the right)`. -/
def runsCore (keep : Char → Bool) (s : List Char) : List Char × List (List Char) :=
  s.foldr (runStep keep) ([], [])

/-- Close the scan: a pending non-empty run becomes the first emitted run. -/
def runsP (keep : Char → Bool) (s : List Char) : List (List Char) :=
  let p := runsCore keep s
  if p.1.isEmpty then p.2 else p.1 :: p.2

/-- The whitespace-separated words of a string:
`raw.strip().split()` on the character-list model. -/
def words (s : List Char) : List (List Char) :=
  runsP (fun c => !(isSpaceChar c)) s

/-- `" ".join(ws)`. -/
def joinSpace : List (List Char) → List Char
  | [] => []
  | [w] => w
  | w :: ws => w ++ ' ' :: joinSpace ws

/-- `" ".join(s.strip().split())`: trim and collapse internal whitespace. -/
def collapse (s : List Char) : List Char := joinSpace (words s)

/-- `WRAPPING_QUOTES = {'"', "'"}` (the second char is the apostrophe,
code point 39). -/
def WRAPPING_QUOTES : List Char := ['"', Char.ofNat 39]

/-- The guard of `normalize_search_query`: length at least 2, first and last
characters equal, and the first character a wrapping quote. -/
def isWrappedInQuotes (n : List Char) : Bool :=
  decide (2 ≤ n.length) && (n.headI == n.getLastI) && WRAPPING_QUOTES.contains n.headI

/-- `normalize_search_query` of `recipe_search.py`: collapse whitespace; if
the result is symmetrically wrapped in one matching pair of quote characters,
strip exactly one layer (`normalized[1:-1]`) and collapse again.  The strip is
applied at most once per call. -/
def normalize_search_query (raw : List Char) : List Char :=
  let normalized := collapse raw
  if isWrappedInQuotes normalized then collapse ((normalized.drop 1).dropLast)
  else normalized

/-- An ASCII lowercase letter, the alphabet of `TOKEN_PATTERN = [a-z]+`. -/
def isLowerAlpha (c : Char) : Bool := decide ('a' ≤ c) && decide (c ≤ 'z')

/-- `_tokenize`: lowercase the text and extract the maximal `[a-z]+` runs.
The Python function returns a set; the model returns the run list and every
use below is membership-based, so duplicates are irrelevant. -/
def _tokenize (s : String) : List String :=
  (runsP isLowerAlpha (s.toList.map Char.toLower)).map (fun l => String.mk l)

/-- `CUISINE_KEYWORDS` of `recipe_search.py`. -/
def CUISINE_KEYWORDS : List (String × List String) :=
  [("indian", ["indian", "paneer", "tikka", "masala", "aloo", "gobi", "chana",
               "dal", "garam", "korma", "vindaloo", "saag"]),
   ("thai", ["thai", "lemongrass", "galangal", "basil", "coconut", "kaffir",
             "krapow", "tom", "yum"]),
   ("italian", ["italian", "pasta", "lasagna", "spaghetti", "penne",
                "risotto", "parmesan", "pecorino"]),
   ("japanese", ["japanese", "udon", "ramen", "miso", "dashi", "teriyaki"])]

/-- `CURRY_FAMILY_KEYWORDS` of `recipe_search.py`. -/
def CURRY_FAMILY_KEYWORDS : List String :=
  ["curry", "masala", "korma", "vindaloo", "saag", "aloo", "gobi", "chana",
   "tikka", "dal"]

/-- Non-empty intersection of two token sets (modelled as lists). -/
def tokensMeet (xs ys : List String) : Bool := xs.any (fun t => ys.contains t)

/-- `_infer_cuisines`: the cuisines whose keyword set meets the token set. -/
def _infer_cuisines (tokens : List String) : List String :=
  (CUISINE_KEYWORDS.filter (fun p => tokensMeet tokens p.2)).map Prod.fst

/-- `_curry_intent`: the token set meets the curry-family keywords. -/
def _curry_intent (tokens : List String) : Bool :=
  tokensMeet tokens CURRY_FAMILY_KEYWORDS

/-- `_compute_boosts`: `(total_boost, applied_cuisine_boost,
applied_family_boost)`.  A falsy (`None` or empty) query, or an empty token
set on either side, yields all zeros; otherwise the cuisine boost applies when
the inferred cuisine sets meet and the family boost when both sides show curry
intent, each clamped below by 0. -/
def _compute_boosts (query : Option String) (candidate_name : Option String)
    (cuisine_boost family_boost : ℚ) : ℚ × ℚ × ℚ :=
  if !(strTruthy query) then (0, 0, 0)
  else
    let q := query.getD ""
    let query_tokens := _tokenize q
    let candidate_tokens :=
      match candidate_name with
      | none => []
      | some n => _tokenize n
    if query_tokens.isEmpty || candidate_tokens.isEmpty then (0, 0, 0)
    else
      let qc := _infer_cuisines query_tokens
      let cc := _infer_cuisines candidate_tokens
      let acb := if !qc.isEmpty && !cc.isEmpty && tokensMeet qc cc then
          max cuisine_boost 0 else 0
      let afb := if _curry_intent query_tokens && _curry_intent candidate_tokens then
          max family_boost 0 else 0
      (acb + afb, acb, afb)

/-- A search-result row: the raw vector-store hit fields (`id` after
`_normalize_recipe_id`, `name`, `distance` after `_to_float`) plus the
optional score fields that `_rank_matches` may attach to a copied row. -/
structure SearchRow where
  id : Option String
  name : Option String
  distance : Option ℚ
  rerank_score : Option ℚ := none
  embedding_score : Option ℚ := none
  combined_score : Option ℚ := none
  raw_rerank_score : Option ℚ := none
  cuisine_boost : Option ℚ := none
  family_boost : Option ℚ := none
  rerank_mode : Option String := none
deriving DecidableEq

/-- One provider-ranked item: `{id, score}` after `_normalize_recipe_id` and
`_to_float`. -/
structure RankedItem where
  id : Option String
  score : Option ℚ
deriving DecidableEq

/-- The `match_by_id` dict of `_rank_matches`: rows with a non-null id, later
rows overwriting earlier ones with the same id (hence the last matching row). -/
def match_by_id (matchRows : List SearchRow) (rid : String) : Option SearchRow :=
  (matchRows.filter (fun row => decide (row.id = some rid))).getLast?

/-- `_embedding_score_from_distance`: `1 - clamp(distance, 0, 1)`, and 0 for a
missing/unparseable distance. -/
def _embedding_score_from_distance : Option ℚ → ℚ
  | none => 0
  | some d => 1 - clamp01 d

/-- The mutable state of the `for ranked in ranked_items:` loop of
`_rank_matches`: `used_ids` (kept as an ordered list), `ranked_ids_found`,
and the accumulated `ordered_matches`. -/
structure RankState where
  used : List String
  found : Bool
  acc : List SearchRow
deriving DecidableEq

/-- One iteration of the ranking loop of `_rank_matches`.  Skips: null id,
already-used id, id absent from `match_by_id` (these leave the state, in
particular `ranked_ids_found`, unchanged); a null score and a boosted score
below the cutoff continue with `ranked_ids_found` set.  A surviving item
copies the matched row, attaches the score fields (keeping the copied value
where the source assigns only conditionally), appends the row and marks the
id used. -/
def rankStep (mbid : String → Option SearchRow) (nmin nw : ℚ)
    (query : Option String) (cuisine_boost family_boost : ℚ)
    (mode : Option String) (st : RankState) (item : RankedItem) : RankState :=
  match item.id with
  | none => st
  | some rid =>
    if st.used.contains rid then st
    else
      match mbid rid with
      | none => st
      | some row0 =>
        match item.score with
        | none => { st with found := true }
        | some raw =>
          let b := _compute_boosts query row0.name cuisine_boost family_boost
          let rs := clamp01 (raw + b.1)
          if rs < nmin then { st with found := true }
          else
            let es := _embedding_score_from_distance row0.distance
            let cs := nw * rs + (1 - nw) * es
            let row1 : SearchRow :=
              { row0 with
                rerank_score := some rs
                embedding_score := some es
                combined_score := some cs
                raw_rerank_score :=
                  if rs ≠ raw then some raw else row0.raw_rerank_score
                cuisine_boost := if 0 < b.2.1 then some b.2.1 else row0.cuisine_boost
                family_boost := if 0 < b.2.2 then some b.2.2 else row0.family_boost
                rerank_mode := if strTruthy mode then mode else row0.rerank_mode }
            { used := st.used ++ [rid], found := true, acc := st.acc ++ [row1] }

/-- The sort key `item.get("combined_score", 0.0)`. -/
def combinedKey (row : SearchRow) : ℚ := row.combined_score.getD 0

/-- Stable descending insertion: the new row goes after every earlier row
whose key is at least its own, matching Python's stable
`sort(key=..., reverse=True)`. -/
def insertByCombinedDesc (x : SearchRow) : List SearchRow → List SearchRow
  | [] => [x]
  | y :: ys =>
    if combinedKey y < combinedKey x then x :: y :: ys
    else y :: insertByCombinedDesc x ys

/-- Stable sort of the accumulated rows by `combined_score`, descending. -/
def sortByCombinedDesc (rows : List SearchRow) : List SearchRow :=
  rows.foldl (fun acc x => insertByCombinedDesc x acc) []

/-- `_rank_matches`: build `match_by_id`, clamp `min_rerank_score` and
`rerank_weight` to `[0,1]`, run the ranking loop, and return the stable
descending sort of the surviving rows together with `ranked_ids_found`. -/
def _rank_matches (matchRows : List SearchRow) (ranked_items : List RankedItem)
    (min_rerank_score rerank_weight : ℚ) (query : Option String)
    (cuisine_boost family_boost : ℚ) (rerank_mode : Option String) :
    List SearchRow × Bool :=
  let st := ranked_items.foldl
    (rankStep (match_by_id matchRows) (clamp01 min_rerank_score)
      (clamp01 rerank_weight) query cuisine_boost family_boost rerank_mode)
    ⟨[], false, []⟩
  (sortByCombinedDesc st.acc, st.found)

/-- `apply_rerank`: empty provider output → original order truncated; strict
pass (configured cutoff, no query, no boosts, no mode); unusable ids →
original order truncated; surviving strict rows → truncated strict rows;
otherwise consult the fallback threshold: absent → `[]`, clamped value not
strictly below the clamped strict cutoff → `[]`, else run the fallback pass
with boosts enabled and `rerank_mode = "fallback"`, truncated. -/
def apply_rerank (matchRows : List SearchRow) (ranked_items : List RankedItem)
    (limit : ℕ) (min_rerank_score : ℚ) (fallback_min_rerank_score : Option ℚ)
    (rerank_weight : ℚ) (query : Option String)
    (cuisine_boost family_boost : ℚ) : List SearchRow :=
  if ranked_items.isEmpty then matchRows.take limit
  else
    let strict := _rank_matches matchRows ranked_items min_rerank_score
      rerank_weight none 0 0 none
    if !strict.2 then matchRows.take limit
    else if !strict.1.isEmpty then strict.1.take limit
    else
      match fallback_min_rerank_score with
      | none => []
      | some f =>
        let nf := clamp01 f
        if clamp01 min_rerank_score ≤ nf then []
        else
          (_rank_matches matchRows ranked_items nf rerank_weight query
            cuisine_boost family_boost (some "fallback")).1.take limit

/-- Test fixture for the reranker example of the spec: two candidate rows
with distances `0.09` and `0.11`. -/
def exampleMatches : List SearchRow :=
  [{ id := some "1", name := some "Alpha", distance := some (9/100) },
   { id := some "2", name := some "Beta", distance := some (11/100) }]

/-- Test fixture: the provider ranking for `exampleMatches`, scores `0.9` and
`0.3`. -/
def exampleRanked : List RankedItem :=
  [{ id := some "1", score := some (9/10) },
   { id := some "2", score := some (3/10) }]

/-- The single surviving scored row of the reranker example. -/
def exampleSurvivor : SearchRow :=
  { id := some "1", name := some "Alpha", distance := some (9/100),
    rerank_score := some (9/10), embedding_score := some (91/100),
    combined_score := some (903/1000) }

/-- Test fixture: one candidate whose name shares cuisine and curry-family
tokens with the query `thai curry`. -/
def cexMatches : List SearchRow :=
  [{ id := some "1", name := some "thai curry special", distance := some (1/10) }]

/-- Test fixture: the provider ranking for `cexMatches`, score `0.9`. -/
def cexRanked : List RankedItem := [{ id := some "1", score := some (9/10) }]

/-- Claim C1: with a nearest stored embedding of the configured type carrying
a non-null distance `d` (and the thresholds configured with
`strict ≤ loose`), `find_duplicate` returns `(true, nearest_id)` without
invoking the judgment provider when `d ≤ strict`, returns `(false, null)`
without invoking the judgment provider when `d > loose`, and invokes the
judgment provider only when `strict < d ≤ loose`. -/
theorem find_duplicate_three_zone (s : DedupeSettings) (env : DedupeEnv)
    (hit : NearestHit) (d : ℚ)
    (hn : env.nearest = some hit) (hd : hit.distance = some d)
    (hord : s.strict_duplicate_threshold ≤ s.distance_threshold) :
    (d ≤ s.strict_duplicate_threshold →
      find_duplicate s env = ⟨true, some hit.recipe_id, env.embedding, 0⟩)
    ∧ (s.distance_threshold < d →
      find_duplicate s env = ⟨false, none, env.embedding, 0⟩)
    ∧ (0 < (find_duplicate s env).judge_calls →
      s.strict_duplicate_threshold < d ∧ d ≤ s.distance_threshold) := by
  refine ⟨?_, ?_, ?_⟩
  · intro h
    simp [find_duplicate, hn, hd, h]
  · intro h
    have h1 : ¬ d ≤ s.strict_duplicate_threshold := by
      intro h1
      exact absurd h (not_lt.mpr (le_trans h1 hord))
    simp [find_duplicate, hn, hd, h1, h]
  · intro h
    have h1 : ¬ d ≤ s.strict_duplicate_threshold := by
      intro h1
      have e : find_duplicate s env = ⟨true, some hit.recipe_id, env.embedding, 0⟩ := by
        simp [find_duplicate, hn, hd, h1]
      rw [e] at h
      simp at h
    have h2 : ¬ s.distance_threshold < d := by
      intro h2
      have e : find_duplicate s env = ⟨false, none, env.embedding, 0⟩ := by
        simp [find_duplicate, hn, hd, h1, h2]
      rw [e] at h
      simp at h
    exact ⟨lt_of_not_le h1, le_of_not_lt h2⟩

/-- Witness for C1: a concrete strict-zone input (`d = 1/25 ≤ strict = 1/20`)
on which `find_duplicate` returns the nearest id as an automatic duplicate
with zero judgment calls. -/
theorem find_duplicate_three_zone_witness :
    find_duplicate
      { distance_threshold := 3/10, strict_duplicate_threshold := 1/20,
        embedding_type := "title_ingredients" }
      { embedding := [1], nearest := some ⟨"r1", some (1/25)⟩,
        fullRecipe := fun _ => none, judge := (none, none) } =
      ⟨true, some "r1", [1], 0⟩ :=
  (find_duplicate_three_zone _ _ ⟨"r1", some (1/25)⟩ (1/25) rfl rfl
    (by norm_num)).1 (by norm_num)

/-- Claim C4: in the ambiguous band (`strict < d ≤ loose`, full existing
recipe present), a judgment-provider failure — a null decision or a truthy
error message, the shape `make_llm_call_structured_output_generic` produces
when the provider raises or returns unusable output — makes `find_duplicate`
fail open: it returns `(false, null)` (after the single judgment attempt) and
never propagates the failure. -/
theorem find_duplicate_ambiguous_fail_open (s : DedupeSettings)
    (env : DedupeEnv) (hit : NearestHit) (d : ℚ) (rec : ExistingRecipe)
    (hn : env.nearest = some hit) (hd : hit.distance = some d)
    (h1 : s.strict_duplicate_threshold < d) (h2 : d ≤ s.distance_threshold)
    (hrec : env.fullRecipe hit.recipe_id = some rec)
    (hfail : env.judge.1 = none ∨ ∃ e, env.judge.2 = some e ∧ e ≠ "") :
    find_duplicate s env = ⟨false, none, env.embedding, 1⟩ := by
  have hnle : ¬ d ≤ s.strict_duplicate_threshold := not_le.mpr h1
  have hnlt : ¬ s.distance_threshold < d := not_lt.mpr h2
  have htruthy : (strTruthy env.judge.2 || env.judge.1.isNone) = true := by
    rcases hfail with h | ⟨e, he, hne⟩
    · simp [h]
    · simp [strTruthy, he, hne]
  simp [find_duplicate, hn, hd, hnle, hnlt, hrec, htruthy]

/-- Witness for C4: a concrete ambiguous-band input (`d = 1/10`) whose
judgment call reports `(None, "boom")`; the result is distinct/fail-open. -/
theorem find_duplicate_ambiguous_fail_open_witness :
    find_duplicate
      { distance_threshold := 3/10, strict_duplicate_threshold := 1/20,
        embedding_type := "title_ingredients" }
      { embedding := [1], nearest := some ⟨"r1", some (1/10)⟩,
        fullRecipe := fun _ => some ⟨"t", [], []⟩,
        judge := (none, some "boom") } =
      ⟨false, none, [1], 1⟩ :=
  find_duplicate_ambiguous_fail_open _ _ ⟨"r1", some (1/10)⟩ (1/10)
    ⟨"t", [], []⟩ rfl rfl (by norm_num) (by norm_num) rfl (Or.inl rfl)

/-- Claim C10: in the ambiguous band (`strict < d ≤ loose`), when fetching the
full existing recipe for the nearest id yields no record, `find_duplicate`
returns `(false, null)` without invoking the judgment provider. -/
theorem find_duplicate_missing_existing_recipe (s : DedupeSettings)
    (env : DedupeEnv) (hit : NearestHit) (d : ℚ)
    (hn : env.nearest = some hit) (hd : hit.distance = some d)
    (h1 : s.strict_duplicate_threshold < d) (h2 : d ≤ s.distance_threshold)
    (hrec : env.fullRecipe hit.recipe_id = none) :
    find_duplicate s env = ⟨false, none, env.embedding, 0⟩ := by
  have hnle : ¬ d ≤ s.strict_duplicate_threshold := not_le.mpr h1
  have hnlt : ¬ s.distance_threshold < d := not_lt.mpr h2
  simp [find_duplicate, hn, hd, hnle, hnlt, hrec]

/-- Witness for C10: a concrete ambiguous-band input whose recipe-store lookup
returns nothing; the result is distinct with zero judgment calls. -/
theorem find_duplicate_missing_existing_recipe_witness :
    find_duplicate
      { distance_threshold := 3/10, strict_duplicate_threshold := 1/20,
        embedding_type := "title_ingredients" }
      { embedding := [1], nearest := some ⟨"r1", some (1/10)⟩,
        fullRecipe := fun _ => none,
        judge := (some ⟨"duplicate", ""⟩, none) } =
      ⟨false, none, [1], 0⟩ :=
  find_duplicate_missing_existing_recipe _ _ ⟨"r1", some (1/10)⟩ (1/10)
    rfl rfl (by norm_num) (by norm_num) rfl

/-- Counterexample for C7: constructing the dedupe service with strict
threshold `1/2` greater than loose threshold `3/10` is not rejected — the
constructor returns normally and the service carries the inverted
thresholds. -/
theorem dedupe_init_accepts_inverted_thresholds_cex :
    dedupe_service_init (some (3/10)) (some (1/2)) none =
      { distance_threshold := 3/10, strict_duplicate_threshold := 1/2,
        embedding_type := "title_ingredients" } ∧
    ¬ ((dedupe_service_init (some (3/10)) (some (1/2)) none).strict_duplicate_threshold ≤
        (dedupe_service_init (some (3/10)) (some (1/2)) none).distance_threshold) := by
  constructor
  · rfl
  · norm_num [dedupe_service_init, _get_dedupe_settings]

/-- Amended C7: construction performs no threshold validation at all — for
every configured pair the constructor succeeds and stores the configured
values unchanged (so `strict > loose` is accepted, not rejected; the inverted
band is only resolved per call by the order of the branch checks). -/
theorem dedupe_init_no_validation (dt st : ℚ) (et : String) :
    dedupe_service_init (some dt) (some st) (some et) =
      { distance_threshold := dt, strict_duplicate_threshold := st,
        embedding_type := et } := rfl

/-- Counterexample for C3: two `make_embedding` calls on the same text invoke
the embedding provider twice, not at most once — the function consults no
cache. -/
theorem make_embedding_not_memoized_cex :
    make_embedding_twice (fun _ => [0]) "chicken curry" = 2 ∧
    ¬ (make_embedding_twice (fun _ => [0]) "chicken curry" ≤ 1) := by
  constructor
  · rfl
  · decide

/-- Amended C3: `make_embedding` is not memoized — every call invokes the
embedding provider exactly once more, regardless of the text or of any prior
call with the same text (the response caches of the module serve only the
text-generation and structured-output calls). -/
theorem make_embedding_always_calls_provider (provider : String → List ℚ)
    (provider_calls : ℕ) (text : String) :
    make_embedding provider provider_calls text =
      (provider text, provider_calls + 1) := rfl

/-- Assigning a key absent from the ordered map appends it at the tail. -/
theorem odAssign_fresh {V : Type} (data : List (String × CacheEntry V))
    (key : String) (e : CacheEntry V) (h : ∀ p ∈ data, p.1 ≠ key) :
    odAssign data key e = data ++ [(key, e)] := by
  unfold odAssign
  have hany : data.any (fun p => p.1 == key) = false := by
    simp only [List.any_eq_false]
    intro p hp
    simpa using h p hp
  simp [hany]

/-- Moving a tail key that occurs nowhere else leaves the map unchanged. -/
theorem odMoveToEnd_append_fresh {V : Type}
    (data : List (String × CacheEntry V)) (key : String) (e : CacheEntry V)
    (h : ∀ p ∈ data, p.1 ≠ key) :
    odMoveToEnd (data ++ [(key, e)]) key = data ++ [(key, e)] := by
  unfold odMoveToEnd
  have h1 : (data ++ [(key, e)]).filter (fun p => !(p.1 == key)) = data := by
    rw [List.filter_append]
    have : data.filter (fun p => !(p.1 == key)) = data := by
      apply List.filter_eq_self.mpr
      intro p hp
      simpa using h p hp
    simp [this]
  have h2 : (data ++ [(key, e)]).filter (fun p => p.1 == key) = [(key, e)] := by
    rw [List.filter_append]
    have : data.filter (fun p => (p.1 == key)) = [] := by
      apply List.filter_eq_nil_iff.mpr
      intro p hp
      simpa using h p hp
    simp [this]
  rw [h1, h2]

/-- `set` never changes the configured TTL. -/
theorem set_ttl_seconds {V : Type} (c : TTLCache V) (now : ℚ) (key : String)
    (value : V) (o : Option ℚ) :
    (c.set now key value o).ttl_seconds = c.ttl_seconds := by
  unfold TTLCache.set TTLCache.prune
  dsimp only
  split_ifs <;> rfl

/-- `set` never changes the configured capacity. -/
theorem set_max_items {V : Type} (c : TTLCache V) (now : ℚ) (key : String)
    (value : V) (o : Option ℚ) :
    (c.set now key value o).max_items = c.max_items := by
  unfold TTLCache.set TTLCache.prune
  dsimp only
  split_ifs <;> rfl

/-- On an enabled cache whose entries are all live and avoid the new key, a
default-TTL `set` appends the fresh entry and drops the oversize head
prefix. -/
theorem set_fresh {V : Type} (c : TTLCache V) (now : ℚ) (key : String)
    (value : V) (h0 : 0 < c.ttl_seconds) (h1 : 0 < c.max_items)
    (hkey : ∀ p ∈ c.data, p.1 ≠ key)
    (halive : ∀ p ∈ c.data, now < p.2.expires_at) :
    (c.set now key value none).data =
      (c.data ++ [(key, ({ expires_at := now + c.ttl_seconds, value := value } : CacheEntry V))]).drop
        ((c.data.length + 1) - c.max_items.toNat) := by
  unfold TTLCache.set
  rw [if_pos ⟨h0, h1⟩]
  simp only [Option.getD_none]
  rw [if_neg (not_le.mpr h0)]
  rw [odAssign_fresh c.data key _ hkey, odMoveToEnd_append_fresh c.data key _ hkey]
  unfold TTLCache.prune
  have hfilter :
      ((c.data ++ [(key, ({ expires_at := now + c.ttl_seconds, value := value } : CacheEntry V))]).filter
        (fun p => !(decide (p.2.expires_at ≤ now)))) =
      c.data ++ [(key, ({ expires_at := now + c.ttl_seconds, value := value } : CacheEntry V))] := by
    apply List.filter_eq_self.mpr
    intro p hp
    rcases List.mem_append.mp hp with h | h
    · simpa using not_le.mpr (halive p h)
    · rcases List.mem_singleton.mp h with rfl
      simp only [Bool.not_eq_true']
      apply decide_eq_false
      exact not_le.mpr (by linarith)
  simp only [hfilter, List.length_append, List.length_singleton]

/-- After any enabled default-TTL `set`, the entry count is at most the
capacity. -/
theorem set_length_le {V : Type} (c : TTLCache V) (now : ℚ) (key : String)
    (value : V) (h0 : 0 < c.ttl_seconds) (h1 : 0 < c.max_items) :
    ((c.set now key value none).data).length ≤ c.max_items.toNat := by
  unfold TTLCache.set
  rw [if_pos ⟨h0, h1⟩]
  simp only [Option.getD_none]
  rw [if_neg (not_le.mpr h0)]
  unfold TTLCache.prune
  simp only [List.length_drop]
  omega


/-- A fold of `set` calls never changes the configured TTL. -/
theorem insertAll_ttl_seconds {V : Type} (c : TTLCache V) (now : ℚ)
    (kvs : List (String × V)) :
    (insertAll c now kvs).ttl_seconds = c.ttl_seconds := by
  induction kvs generalizing c with
  | nil => rfl
  | cons kv rest ih =>
    unfold insertAll
    rw [List.foldl_cons]
    have h := ih (c.set now kv.1 kv.2 none)
    unfold insertAll at h
    rw [h, set_ttl_seconds]

/-- A fold of `set` calls never changes the configured capacity. -/
theorem insertAll_max_items {V : Type} (c : TTLCache V) (now : ℚ)
    (kvs : List (String × V)) :
    (insertAll c now kvs).max_items = c.max_items := by
  induction kvs generalizing c with
  | nil => rfl
  | cons kv rest ih =>
    unfold insertAll
    rw [List.foldl_cons]
    have h := ih (c.set now kv.1 kv.2 none)
    unfold insertAll at h
    rw [h, set_max_items]

/-- Inserting distinct keys at one clock reading into a fresh enabled cache
keeps exactly the newest `max_items` entries: the surviving data is the
insertion sequence with its oversize head prefix dropped. -/
theorem insertAll_distinct {V : Type} (ttl now : ℚ) (N : ℤ)
    (h0 : 0 < ttl) (h1 : 0 < N) (kvs : List (String × V))
    (hnd : (kvs.map Prod.fst).Nodup) :
    (insertAll (⟨ttl, N, []⟩ : TTLCache V) now kvs).data =
      (kvs.map (fun kv => (kv.1, (⟨now + ttl, kv.2⟩ : CacheEntry V)))).drop
        (kvs.length - N.toNat) := by
  induction kvs using List.reverseRecOn with
  | nil => simp [insertAll]
  | append_singleton l kv ih =>
    have hnd' : (l.map Prod.fst).Nodup := by
      rw [List.map_append] at hnd
      exact (List.nodup_append.mp hnd).1
    have hfreshkey : kv.1 ∉ l.map Prod.fst := by
      rw [List.map_append] at hnd
      intro hmem
      exact (List.nodup_append.mp hnd).2.2 hmem (by simp)
    have ihl := ih hnd'
    have hc : insertAll (⟨ttl, N, []⟩ : TTLCache V) now (l ++ [kv]) =
        (insertAll (⟨ttl, N, []⟩ : TTLCache V) now l).set now kv.1 kv.2 none := by
      unfold insertAll
      rw [List.foldl_append]
      rfl
    rw [hc]
    have httl := insertAll_ttl_seconds (⟨ttl, N, []⟩ : TTLCache V) now l
    have hmax := insertAll_max_items (⟨ttl, N, []⟩ : TTLCache V) now l
    have hkeys : ∀ p ∈ (insertAll (⟨ttl, N, []⟩ : TTLCache V) now l).data,
        p.1 ≠ kv.1 := by
      intro p hp
      rw [ihl] at hp
      have hsub := List.drop_subset _ _ hp
      obtain ⟨kv2, hkv2, heq⟩ := List.mem_map.mp hsub
      intro hcontra
      apply hfreshkey
      have hfst : p.1 = kv2.1 := by rw [← heq]
      rw [hfst] at hcontra
      exact hcontra ▸ List.mem_map_of_mem Prod.fst hkv2
    have halive : ∀ p ∈ (insertAll (⟨ttl, N, []⟩ : TTLCache V) now l).data,
        now < p.2.expires_at := by
      intro p hp
      rw [ihl] at hp
      have hsub := List.drop_subset _ _ hp
      obtain ⟨kv2, hkv2, heq⟩ := List.mem_map.mp hsub
      rw [← heq]
      simpa using h0
    have hset := set_fresh (insertAll (⟨ttl, N, []⟩ : TTLCache V) now l)
      now kv.1 kv.2 (by rw [httl]; exact h0) (by rw [hmax]; exact h1)
      hkeys halive
    rw [hset, ihl, httl, hmax]
    rw [← List.drop_append_of_le_length
      (by simp [List.length_map] : l.length - N.toNat ≤
        (l.map (fun kv => (kv.1, (⟨now + ttl, kv.2⟩ : CacheEntry V)))).length)]
    rw [List.drop_drop]
    rw [List.map_append]
    simp only [List.length_drop, List.length_append, List.length_map,
      List.length_singleton, List.map_cons, List.map_nil]
    congr 1
    omega

/-- Claim C6: for a cache of capacity `N > 0` with positive TTL, inserting
`N + 1` distinct keys (all unexpired) leaves exactly `N` keys present and
evicts precisely the first-inserted — the least-recently-touched — key: the
surviving keys are the insertion order minus its head.  Moreover after every
default-TTL `set` on such a cache the entry count never exceeds `N`. -/
theorem cache_capacity_eviction (N : ℤ) (ttl now : ℚ)
    (kvs : List (String × String)) (h0 : 0 < ttl) (h1 : 0 < N)
    (hnd : (kvs.map Prod.fst).Nodup) (hlen : kvs.length = N.toNat + 1) :
    ((insertAll (⟨ttl, N, []⟩ : TTLCache String) now kvs).data.map Prod.fst =
        (kvs.map Prod.fst).drop 1
      ∧ (insertAll (⟨ttl, N, []⟩ : TTLCache String) now kvs).data.length =
        N.toNat)
    ∧ ∀ (c : TTLCache String) (now2 : ℚ) (key value : String),
        0 < c.ttl_seconds → c.max_items = N →
        ((c.set now2 key value none).data).length ≤ N.toNat := by
  constructor
  · have hdata := insertAll_distinct ttl now N h0 h1 kvs hnd
    have hdrop : kvs.length - N.toNat = 1 := by omega
    rw [hdrop] at hdata
    constructor
    · rw [hdata, ← List.map_drop, List.map_map]
      rw [← List.map_drop]
      rfl
    · rw [hdata]
      simp only [List.length_drop, List.length_map]
      omega
  · intro c now2 key value hc0 hcN
    have := set_length_le c now2 key value hc0 (by rw [hcN]; exact h1)
    rwa [hcN] at this

/-- Witness for C6: capacity 2, TTL 1, inserting the three distinct keys
`a`, `b`, `c`; the cache keeps exactly `b, c` (two entries) and evicts the
first-inserted key `a`. -/
theorem cache_capacity_eviction_witness :
    (insertAll (⟨1, 2, []⟩ : TTLCache String) 0
        [("a", "1"), ("b", "2"), ("c", "3")]).data.map Prod.fst = ["b", "c"]
    ∧ (insertAll (⟨1, 2, []⟩ : TTLCache String) 0
        [("a", "1"), ("b", "2"), ("c", "3")]).data.length = 2 :=
  (cache_capacity_eviction 2 1 0 [("a", "1"), ("b", "2"), ("c", "3")]
    (by norm_num) (by norm_num) (by decide) (by decide)).1

/-- Claim C8: two candidates with distances `0.09`/`0.11` and provider scores
`0.9`/`0.3`, under `min_score = 0.4`, `weight = 0.7` and no boosts: the
ranking keeps only the first candidate and attaches
`combined_score = 0.7 * 0.9 + 0.3 * (1 - 0.09) = 0.903`; `apply_rerank`
returns exactly that single scored row. -/
theorem rank_matches_strict_success_example :
    _rank_matches exampleMatches exampleRanked (2/5) (7/10) none 0 0 none =
      ([exampleSurvivor], true)
    ∧ apply_rerank exampleMatches exampleRanked 5 (2/5) (some (1/4)) (7/10)
        none 0 0 = [exampleSurvivor] := by
  have h1 : match_by_id exampleMatches "1" =
      some { id := some "1", name := some "Alpha", distance := some (9/100) } := by
    simp [match_by_id, exampleMatches]
  have h2 : match_by_id exampleMatches "2" =
      some { id := some "2", name := some "Beta", distance := some (11/100) } := by
    simp [match_by_id, exampleMatches]
  have s1 : rankStep (match_by_id exampleMatches) (clamp01 (2/5)) (clamp01 (7/10))
      none 0 0 none ⟨[], false, []⟩ ⟨some "1", some (9/10)⟩ =
      ⟨["1"], true, [exampleSurvivor]⟩ := by
    unfold rankStep
    dsimp only
    rw [h1]
    norm_num [clamp01, _compute_boosts, strTruthy, _embedding_score_from_distance,
      min_def, max_def, exampleSurvivor]
  have s2 : rankStep (match_by_id exampleMatches) (clamp01 (2/5)) (clamp01 (7/10))
      none 0 0 none ⟨["1"], true, [exampleSurvivor]⟩ ⟨some "2", some (3/10)⟩ =
      ⟨["1"], true, [exampleSurvivor]⟩ := by
    unfold rankStep
    dsimp only
    rw [h2]
    norm_num [clamp01, _compute_boosts, strTruthy, _embedding_score_from_distance,
      min_def, max_def]
  have hrm : _rank_matches exampleMatches exampleRanked (2/5) (7/10)
      none 0 0 none = ([exampleSurvivor], true) := by
    unfold _rank_matches exampleRanked
    rw [List.foldl_cons, s1, List.foldl_cons, s2, List.foldl_nil]
    simp [sortByCombinedDesc, insertByCombinedDesc]
  have hne : exampleRanked.isEmpty = false := by simp [exampleRanked]
  refine ⟨hrm, ?_⟩
  simp [apply_rerank, hne, hrm]

/-- Counterexample for C2: with strict threshold `1.5` and fallback threshold
`1.2` — configured strictly below it — the strict pass finds the candidate id
but yields no survivors, yet `apply_rerank` returns `[]` without rerunning the
ranking: the gate compares the thresholds after clamping both to `[0,1]`
(`1.0 ≥ 1.0`), while the fallback rerun itself would have returned a
(boost-saturated) result. -/
theorem apply_rerank_clamped_gate_cex :
    ((6/5 : ℚ) < 3/2)
    ∧ apply_rerank cexMatches cexRanked 5 (3/2) (some (6/5)) (7/10)
        (some "thai curry") (3/20) 0 = []
    ∧ ((_rank_matches cexMatches cexRanked (clamp01 (6/5)) (7/10)
        (some "thai curry") (3/20) 0 (some "fallback")).1).take 5 ≠ [] := by
  have hmb : match_by_id cexMatches "1" =
      some { id := some "1", name := some "thai curry special",
             distance := some (1/10) } := by
    simp [match_by_id, cexMatches]
  have hb : _compute_boosts (some "thai curry") (some "thai curry special") (3/20) 0 =
      (3/20, 3/20, 0) := by
    have ht1 : _tokenize "thai curry" = ["thai", "curry"] := by decide
    have ht2 : _tokenize "thai curry special" = ["thai", "curry", "special"] := by decide
    have hic1 : _infer_cuisines ["thai", "curry"] = ["thai"] := by decide
    have hic2 : _infer_cuisines ["thai", "curry", "special"] = ["thai"] := by decide
    have hci1 : _curry_intent ["thai", "curry"] = true := by decide
    have hci2 : _curry_intent ["thai", "curry", "special"] = true := by decide
    have htm : tokensMeet ["thai"] ["thai"] = true := by decide
    have hneq : ("thai curry" = "") = False := by simp
    norm_num [_compute_boosts, strTruthy, ht1, ht2, hic1, hic2, hci1, hci2, htm,
      hneq, min_def, max_def]
  have s1 : rankStep (match_by_id cexMatches) (clamp01 (3/2)) (clamp01 (7/10))
      none 0 0 none ⟨[], false, []⟩ ⟨some "1", some (9/10)⟩ =
      ⟨[], true, []⟩ := by
    unfold rankStep
    dsimp only
    rw [hmb]
    norm_num [clamp01, _compute_boosts, strTruthy, min_def, max_def]
  have hstrict : _rank_matches cexMatches cexRanked (3/2) (7/10) none 0 0 none =
      ([], true) := by
    unfold _rank_matches cexRanked
    rw [List.foldl_cons, s1, List.foldl_nil]
    simp [sortByCombinedDesc]
  have s2 : rankStep (match_by_id cexMatches) (clamp01 (clamp01 (6/5))) (clamp01 (7/10))
      (some "thai curry") (3/20) 0 (some "fallback") ⟨[], false, []⟩
      ⟨some "1", some (9/10)⟩ =
      ⟨["1"], true,
        [{ id := some "1", name := some "thai curry special",
           distance := some (1/10), rerank_score := some 1,
           embedding_score := some (9/10), combined_score := some (97/100),
           raw_rerank_score := some (9/10), cuisine_boost := some (3/20),
           rerank_mode := some "fallback" }]⟩ := by
    unfold rankStep
    dsimp only
    rw [hmb]
    have hfb0 : ("fallback" = "") = False := by simp
    norm_num [hb, clamp01, strTruthy, hfb0, _embedding_score_from_distance,
      min_def, max_def]
  have hfb : (_rank_matches cexMatches cexRanked (clamp01 (6/5)) (7/10)
      (some "thai curry") (3/20) 0 (some "fallback")).1 =
      [{ id := some "1", name := some "thai curry special",
         distance := some (1/10), rerank_score := some 1,
         embedding_score := some (9/10), combined_score := some (97/100),
         raw_rerank_score := some (9/10), cuisine_boost := some (3/20),
         rerank_mode := some "fallback" }] := by
    unfold _rank_matches cexRanked
    rw [List.foldl_cons, s2, List.foldl_nil]
    simp [sortByCombinedDesc, insertByCombinedDesc]
  have hne : cexRanked.isEmpty = false := by simp [cexRanked]
  refine ⟨by norm_num, ?_, ?_⟩
  · have hgate : clamp01 (3/2) ≤ clamp01 (6/5) := by
      norm_num [clamp01, min_def, max_def]
    simp [apply_rerank, hne, hstrict, hgate]
  · rw [hfb]
    simp

/-- A ranked id matching no candidate id is absent from `match_by_id`. -/
theorem match_by_id_eq_none (matchRows : List SearchRow) (rid : String)
    (h : ∀ row ∈ matchRows, row.id ≠ some rid) :
    match_by_id matchRows rid = none := by
  unfold match_by_id
  have hf : matchRows.filter (fun row => decide (row.id = some rid)) = [] :=
    List.filter_eq_nil_iff.mpr (fun row hrow => by simpa using h row hrow)
  rw [hf]
  rfl

/-- An item whose id is null or unmatched leaves the loop state unchanged. -/
theorem rankStep_of_no_match (mbid : String → Option SearchRow) (nmin nw : ℚ)
    (query : Option String) (cb fb : ℚ) (mode : Option String)
    (st : RankState) (item : RankedItem)
    (h : ∀ rid, item.id = some rid → mbid rid = none) :
    rankStep mbid nmin nw query cb fb mode st item = st := by
  cases hid : item.id with
  | none => simp [rankStep, hid]
  | some rid => simp [rankStep, hid, h rid hid]

/-- A run of items none of which matches a candidate id leaves the state
unchanged — in particular, `ranked_ids_found` stays false. -/
theorem foldl_rankStep_of_no_match (mbid : String → Option SearchRow)
    (nmin nw : ℚ) (query : Option String) (cb fb : ℚ) (mode : Option String)
    (items : List RankedItem) (st : RankState)
    (h : ∀ item ∈ items, ∀ rid, item.id = some rid → mbid rid = none) :
    items.foldl (rankStep mbid nmin nw query cb fb mode) st = st := by
  induction items generalizing st with
  | nil => rfl
  | cons item rest ih =>
    rw [List.foldl_cons, rankStep_of_no_match mbid nmin nw query cb fb mode st
      item (h item (List.mem_cons_self item rest))]
    exact ih st (fun it hit rid hrid => h it (List.mem_cons_of_mem _ hit) rid hrid)

/-- Each loop step either keeps the accumulated rows or appends exactly one
row which, when a truthy mode string is supplied, carries it as
`rerank_mode`. -/
theorem rankStep_acc_cases (mbid : String → Option SearchRow) (nmin nw : ℚ)
    (query : Option String) (cb fb : ℚ) (mode : Option String)
    (st : RankState) (item : RankedItem) :
    (rankStep mbid nmin nw query cb fb mode st item).acc = st.acc ∨
    ∃ row1, (rankStep mbid nmin nw query cb fb mode st item).acc =
        st.acc ++ [row1]
      ∧ (strTruthy mode = true → row1.rerank_mode = mode) := by
  unfold rankStep
  dsimp only
  split
  · exact Or.inl rfl
  · split
    · exact Or.inl rfl
    · split
      · exact Or.inl rfl
      · split
        · exact Or.inl rfl
        · split
          · exact Or.inl rfl
          · refine Or.inr ⟨_, rfl, fun hm => ?_⟩
            simp [hm]

/-- Every row accumulated by the loop under a truthy mode is tagged with it. -/
theorem foldl_rankStep_mode (mbid : String → Option SearchRow) (nmin nw : ℚ)
    (query : Option String) (cb fb : ℚ) (m : String)
    (hm : strTruthy (some m) = true) (items : List RankedItem) (st : RankState)
    (hst : ∀ row ∈ st.acc, row.rerank_mode = some m) :
    ∀ row ∈ (items.foldl (rankStep mbid nmin nw query cb fb (some m)) st).acc,
      row.rerank_mode = some m := by
  induction items generalizing st with
  | nil => exact hst
  | cons item rest ih =>
    rw [List.foldl_cons]
    apply ih
    rcases rankStep_acc_cases mbid nmin nw query cb fb (some m) st item with
      h | ⟨row1, h, htag⟩
    · rw [h]; exact hst
    · rw [h]
      intro row hrow
      rcases List.mem_append.mp hrow with hr | hr
      · exact hst row hr
      · rcases List.mem_singleton.mp hr with rfl
        exact htag hm

/-- Membership through the stable descending insertion. -/
theorem mem_insertByCombinedDesc (x a : SearchRow) (l : List SearchRow) :
    a ∈ insertByCombinedDesc x l ↔ a = x ∨ a ∈ l := by
  induction l with
  | nil => simp [insertByCombinedDesc]
  | cons y ys ih =>
    unfold insertByCombinedDesc
    split
    · simp [List.mem_cons]
    · simp [List.mem_cons, ih]
      tauto

/-- Membership through the insertion-sort fold. -/
theorem mem_foldl_insertByCombinedDesc (l init : List SearchRow) (a : SearchRow)
    (h : a ∈ l.foldl (fun acc x => insertByCombinedDesc x acc) init) :
    a ∈ init ∨ a ∈ l := by
  induction l generalizing init with
  | nil => exact Or.inl h
  | cons x xs ih =>
    rw [List.foldl_cons] at h
    rcases ih (insertByCombinedDesc x init) h with h1 | h1
    · rcases (mem_insertByCombinedDesc x a init).mp h1 with rfl | h2
      · exact Or.inr (List.mem_cons_self _ _)
      · exact Or.inl h2
    · exact Or.inr (List.mem_cons_of_mem _ h1)

/-- The sorted output contains only accumulated rows. -/
theorem mem_sortByCombinedDesc (l : List SearchRow) (a : SearchRow)
    (h : a ∈ sortByCombinedDesc l) : a ∈ l := by
  rcases mem_foldl_insertByCombinedDesc l [] a h with h1 | h1
  · cases h1
  · exact h1

/-- `apply_rerank` never returns more than `limit` rows, on any path. -/
theorem apply_rerank_length_le (matchRows : List SearchRow)
    (ranked_items : List RankedItem) (limit : ℕ) (minS : ℚ) (fbm : Option ℚ)
    (w : ℚ) (query : Option String) (cb fb : ℚ) :
    (apply_rerank matchRows ranked_items limit minS fbm w query cb fb).length
      ≤ limit := by
  unfold apply_rerank
  dsimp only
  split
  · exact List.length_take_le _ _
  · split
    · exact List.length_take_le _ _
    · split
      · exact List.length_take_le _ _
      · split
        · simp
        · split
          · simp
          · exact List.length_take_le _ _

/-- Claim C5: for a non-empty ranked-items list in which no ranked id matches
any input candidate id, `apply_rerank` returns exactly the input candidate
list in its original order truncated to `limit`, and (the input rows carrying
no score fields) no `rerank_score`, `embedding_score` or `combined_score` is
attached to any result. -/
theorem apply_rerank_unusable_ranking_baseline
    (matchRows : List SearchRow) (ranked_items : List RankedItem)
    (limit : ℕ) (minS : ℚ) (fbm : Option ℚ) (w : ℚ)
    (query : Option String) (cb fb : ℚ)
    (hne : ranked_items ≠ [])
    (hmiss : ∀ item ∈ ranked_items, ∀ row ∈ matchRows,
      item.id = none ∨ item.id ≠ row.id)
    (hraw : ∀ row ∈ matchRows, row.rerank_score = none ∧
      row.embedding_score = none ∧ row.combined_score = none) :
    apply_rerank matchRows ranked_items limit minS fbm w query cb fb =
      matchRows.take limit
    ∧ ∀ row ∈ apply_rerank matchRows ranked_items limit minS fbm w query cb fb,
        row.rerank_score = none ∧ row.embedding_score = none ∧
        row.combined_score = none := by
  have hmb : ∀ item ∈ ranked_items, ∀ rid, item.id = some rid →
      match_by_id matchRows rid = none := by
    intro item hitem rid hid
    apply match_by_id_eq_none
    intro row hrow
    rcases hmiss item hitem row hrow with h | h
    · rw [hid] at h
      exact absurd h (Option.some_ne_none rid)
    · rw [hid] at h
      exact fun hc => h hc.symm
  have hrm : _rank_matches matchRows ranked_items minS w none 0 0 none =
      ([], false) := by
    unfold _rank_matches
    rw [foldl_rankStep_of_no_match _ _ _ _ _ _ _ ranked_items _ hmb]
    rfl
  have hie : ranked_items.isEmpty = false := by
    cases ranked_items with
    | nil => exact absurd rfl hne
    | cons a l => rfl
  have happ : apply_rerank matchRows ranked_items limit minS fbm w query cb fb =
      matchRows.take limit := by
    simp [apply_rerank, hie, hrm]
  refine ⟨happ, ?_⟩
  intro row hrow
  rw [happ] at hrow
  exact hraw row (List.take_subset limit matchRows hrow)

/-- Witness for C5: one candidate, one ranked item with the unknown id `9`;
the result is the untouched input (truncated to the limit) with no score
fields. -/
theorem apply_rerank_unusable_ranking_baseline_witness :
    apply_rerank [{ id := some "1", name := some "A", distance := some (1/10) }]
      [{ id := some "9", score := some (1/2) }] 5 (2/5) (some (1/4)) (7/10)
      none 0 0 =
      [{ id := some "1", name := some "A", distance := some (1/10) }] :=
  (apply_rerank_unusable_ranking_baseline
    [{ id := some "1", name := some "A", distance := some (1/10) }]
    [{ id := some "9", score := some (1/2) }] 5 (2/5) (some (1/4)) (7/10)
    none 0 0 (by simp) (by decide) (by decide)).1

/-- Amended C2: when the strict pass found at least one matching ranked id
but produced zero survivors, `apply_rerank` consults the fallback threshold
after clamping both thresholds to `[0,1]`: if a fallback threshold is
configured with clamped value strictly below the clamped strict threshold, it
reruns the ranking at the lower cutoff with lexical boosts enabled and every
returned row carries `rerank_mode = "fallback"`; if no fallback threshold is
configured, or its clamped value is not strictly lower, it returns the empty
list; and on every path the output length is at most `limit`. -/
theorem apply_rerank_fallback_policy (matchRows : List SearchRow)
    (ranked_items : List RankedItem) (limit : ℕ) (minS : ℚ) (fbm : Option ℚ)
    (w : ℚ) (query : Option String) (cb fb : ℚ)
    (hfound : (_rank_matches matchRows ranked_items minS w none 0 0 none).2 = true)
    (hempty : (_rank_matches matchRows ranked_items minS w none 0 0 none).1 = []) :
    (∀ f, fbm = some f → clamp01 f < clamp01 minS →
      apply_rerank matchRows ranked_items limit minS fbm w query cb fb =
        ((_rank_matches matchRows ranked_items (clamp01 f) w query cb fb
          (some "fallback")).1).take limit
      ∧ ∀ row ∈ apply_rerank matchRows ranked_items limit minS fbm w query cb fb,
          row.rerank_mode = some "fallback")
    ∧ (fbm = none →
        apply_rerank matchRows ranked_items limit minS fbm w query cb fb = [])
    ∧ (∀ f, fbm = some f → clamp01 minS ≤ clamp01 f →
        apply_rerank matchRows ranked_items limit minS fbm w query cb fb = [])
    ∧ (apply_rerank matchRows ranked_items limit minS fbm w query cb fb).length
        ≤ limit := by
  have hie : ranked_items.isEmpty = false := by
    cases hran : ranked_items with
    | nil =>
      rw [hran] at hfound
      simp [_rank_matches] at hfound
    | cons a l => rfl
  refine ⟨?_, ?_, ?_, apply_rerank_length_le _ _ _ _ _ _ _ _ _⟩
  · intro f hf hlt
    have hgate : ¬ (clamp01 minS ≤ clamp01 f) := not_le.mpr hlt
    have happ : apply_rerank matchRows ranked_items limit minS fbm w query cb fb =
        ((_rank_matches matchRows ranked_items (clamp01 f) w query cb fb
          (some "fallback")).1).take limit := by
      simp [apply_rerank, hie, hfound, hempty, hf, hgate]
    refine ⟨happ, ?_⟩
    intro row hrow
    rw [happ] at hrow
    have hrow2 := List.take_subset limit _ hrow
    have hrm_eq : (_rank_matches matchRows ranked_items (clamp01 f) w query cb fb
        (some "fallback")).1 =
        sortByCombinedDesc ((ranked_items.foldl
          (rankStep (match_by_id matchRows) (clamp01 (clamp01 f)) (clamp01 w)
            query cb fb (some "fallback")) ⟨[], false, []⟩).acc) := rfl
    rw [hrm_eq] at hrow2
    exact foldl_rankStep_mode _ _ _ _ _ _ "fallback" (by simp [strTruthy])
      ranked_items ⟨[], false, []⟩
      (fun r hr => absurd hr (List.not_mem_nil r)) row
      (mem_sortByCombinedDesc _ row hrow2)
  · intro hf
    simp [apply_rerank, hie, hfound, hempty, hf]
  · intro f hf hge
    simp [apply_rerank, hie, hfound, hempty, hf, hge]

/-- Witness for C2: one candidate, one ranked item with a null score, strict
threshold `0.4` and fallback threshold `0.25`: the strict pass finds the id
but keeps nothing, and the result equals the (here empty) fallback rerun,
trivially all tagged. -/
theorem apply_rerank_fallback_policy_witness :
    apply_rerank [{ id := some "1", name := some "A", distance := some (1/10) }]
      [{ id := some "1", score := none }] 5 (2/5) (some (1/4)) (7/10)
      none 0 0 =
      ((_rank_matches [{ id := some "1", name := some "A", distance := some (1/10) }]
        [{ id := some "1", score := none }] (clamp01 (1/4)) (7/10) none 0 0
        (some "fallback")).1).take 5
    ∧ ∀ row ∈ apply_rerank
        [{ id := some "1", name := some "A", distance := some (1/10) }]
        [{ id := some "1", score := none }] 5 (2/5) (some (1/4)) (7/10)
        none 0 0, row.rerank_mode = some "fallback" :=
  ((apply_rerank_fallback_policy
    [{ id := some "1", name := some "A", distance := some (1/10) }]
    [{ id := some "1", score := none }] 5 (2/5) (some (1/4)) (7/10)
    none 0 0 (by decide) (by decide)).1) (1/4) rfl
    (by norm_num [clamp01, min_def, max_def])

/-- Unfolding the scan one character. -/
theorem runsCore_cons (keep : Char → Bool) (c : Char) (s : List Char) :
    runsCore keep (c :: s) = runStep keep c (runsCore keep s) := rfl

/-- Scan invariant: the pending run holds only `keep` characters, and every
completed run is non-empty and holds only `keep` characters. -/
theorem runsCore_good (keep : Char → Bool) (s : List Char) :
    (∀ c ∈ (runsCore keep s).1, keep c = true) ∧
    (∀ w ∈ (runsCore keep s).2, w ≠ [] ∧ ∀ c ∈ w, keep c = true) := by
  induction s with
  | nil =>
    exact ⟨fun c hc => absurd hc (List.not_mem_nil c),
      fun w hw => absurd hw (List.not_mem_nil w)⟩
  | cons c s ih =>
    rw [runsCore_cons]
    unfold runStep
    by_cases hk : keep c = true
    · rw [if_pos hk]
      refine ⟨?_, ih.2⟩
      intro d hd
      rcases List.mem_cons.mp hd with rfl | hd
      · exact hk
      · exact ih.1 d hd
    · rw [if_neg hk]
      refine ⟨fun d hd => absurd hd (List.not_mem_nil d), ?_⟩
      by_cases he : (runsCore keep s).1.isEmpty = true
      · rw [if_pos he]
        exact ih.2
      · rw [if_neg he]
        intro w hw
        rcases List.mem_cons.mp hw with rfl | hw
        · exact ⟨fun hnil => he (by rw [hnil]; rfl), ih.1⟩
        · exact ih.2 w hw

/-- Every emitted run is non-empty and holds only `keep` characters. -/
theorem runsP_good (keep : Char → Bool) (s : List Char) :
    ∀ w ∈ runsP keep s, w ≠ [] ∧ ∀ c ∈ w, keep c = true := by
  intro w hw
  unfold runsP at hw
  dsimp only at hw
  by_cases he : (runsCore keep s).1.isEmpty = true
  · rw [if_pos he] at hw
    exact (runsCore_good keep s).2 w hw
  · rw [if_neg he] at hw
    rcases List.mem_cons.mp hw with rfl | hw
    · exact ⟨fun hnil => he (by rw [hnil]; rfl), (runsCore_good keep s).1⟩
    · exact (runsCore_good keep s).2 w hw

/-- A separator character at the head is skipped. -/
theorem runsP_skip (keep : Char → Bool) (c : Char) (s : List Char)
    (hk : keep c = false) : runsP keep (c :: s) = runsP keep s := by
  unfold runsP
  dsimp only
  rw [runsCore_cons]
  unfold runStep
  simp only [hk]
  rfl

/-- Scanning a run of `keep` characters prepends it to the pending run. -/
theorem runsCore_keep_prefix (keep : Char → Bool) (w rest : List Char)
    (hw : ∀ c ∈ w, keep c = true) :
    runsCore keep (w ++ rest) =
      (w ++ (runsCore keep rest).1, (runsCore keep rest).2) := by
  induction w with
  | nil => simp
  | cons c w' ih =>
    have hc := hw c (List.mem_cons_self c w')
    have hw' : ∀ d ∈ w', keep d = true :=
      fun d hd => hw d (List.mem_cons_of_mem c hd)
    rw [List.cons_append, runsCore_cons, ih hw']
    unfold runStep
    rw [if_pos hc]
    rfl

/-- At a boundary (end of input or a separator), the pending run is empty and
the completed runs are exactly the emitted runs. -/
theorem runsCore_boundary (keep : Char → Bool) (rest : List Char)
    (h : rest = [] ∨ ∃ d ds, rest = d :: ds ∧ keep d = false) :
    (runsCore keep rest).1 = [] ∧ (runsCore keep rest).2 = runsP keep rest := by
  rcases h with rfl | ⟨d, ds, rfl, hd⟩
  · exact ⟨rfl, rfl⟩
  · rw [runsCore_cons]
    unfold runStep
    simp only [hd]
    refine ⟨rfl, ?_⟩
    rw [runsP_skip keep d ds hd]
    rfl

/-- Splitting off one maximal run at a boundary. -/
theorem runsP_word_split (keep : Char → Bool) (w rest : List Char)
    (hne : w ≠ []) (hw : ∀ c ∈ w, keep c = true)
    (hb : rest = [] ∨ ∃ d ds, rest = d :: ds ∧ keep d = false) :
    runsP keep (w ++ rest) = w :: runsP keep rest := by
  have hcore := runsCore_keep_prefix keep w rest hw
  have hbd := runsCore_boundary keep rest hb
  unfold runsP
  dsimp only
  rw [hcore]
  dsimp only
  rw [hbd.1, hbd.2, List.append_nil]
  rw [if_neg (by simpa [List.isEmpty_iff] using hne)]
  rfl

/-- `joinSpace` over a cons with non-empty tail. -/
theorem joinSpace_cons_ne (w : List Char) (ws : List (List Char))
    (h : ws ≠ []) : joinSpace (w :: ws) = w ++ ' ' :: joinSpace ws := by
  cases ws with
  | nil => exact absurd rfl h
  | cons w2 ws2 => rfl

/-- Splitting the join of non-empty space-free words recovers the words. -/
theorem words_joinSpace (ws : List (List Char))
    (h : ∀ w ∈ ws, w ≠ [] ∧ ∀ c ∈ w, isSpaceChar c = false) :
    words (joinSpace ws) = ws := by
  induction ws with
  | nil => rfl
  | cons w ws ih =>
    have hw := h w (List.mem_cons_self w ws)
    have hkeep : ∀ c ∈ w, (fun c => !(isSpaceChar c)) c = true := by
      intro c hc
      simp [hw.2 c hc]
    cases ws with
    | nil =>
      have hjoin : joinSpace [w] = w ++ [] := by simp [joinSpace]
      unfold words
      rw [hjoin, runsP_word_split _ w [] hw.1 hkeep (Or.inl rfl)]
      rfl
    | cons w2 ws2 =>
      have hws : ∀ v ∈ w2 :: ws2, v ≠ [] ∧ ∀ c ∈ v, isSpaceChar c = false :=
        fun v hv => h v (List.mem_cons_of_mem w hv)
      unfold words
      rw [joinSpace_cons_ne w (w2 :: ws2) (by simp)]
      rw [runsP_word_split _ w (' ' :: joinSpace (w2 :: ws2)) hw.1 hkeep
        (Or.inr ⟨' ', _, rfl, by decide⟩)]
      rw [runsP_skip _ ' ' _ (by decide)]
      have hih := ih hws
      unfold words at hih
      rw [hih]

/-- The words of any string are non-empty and space-free. -/
theorem words_good (s : List Char) :
    ∀ w ∈ words s, w ≠ [] ∧ ∀ c ∈ w, isSpaceChar c = false := by
  intro w hw
  have hg := runsP_good (fun c => !(isSpaceChar c)) s w hw
  exact ⟨hg.1, fun c hc => by simpa using hg.2 c hc⟩

/-- Collapsing is idempotent at the level of words. -/
theorem words_collapse (s : List Char) : words (collapse s) = words s :=
  words_joinSpace (words s) (words_good s)

/-- `collapse` is idempotent. -/
theorem collapse_collapse (s : List Char) :
    collapse (collapse s) = collapse s := by
  have h := words_collapse s
  show joinSpace (words (collapse s)) = collapse s
  rw [h]
  rfl

/-- `normalize_search_query` always returns a collapsed string. -/
theorem collapse_normalize (r : List Char) :
    collapse (normalize_search_query r) = normalize_search_query r := by
  unfold normalize_search_query
  dsimp only
  split
  · exact collapse_collapse _
  · exact collapse_collapse _

/-- `getLastI` of a list with an appended element. -/
theorem getLastI_concat (l : List Char) (x : Char) :
    (l ++ [x]).getLastI = x := by
  rw [List.getLastI_eq_getLast?, List.getLast?_concat]

/-- Appending one non-space character at the end of a join of good words
yields words whose join is the original join with the character appended. -/
theorem words_join_append_last (q : Char) (hq : isSpaceChar q = false)
    (ws : List (List Char)) (hne : ws ≠ [])
    (h : ∀ w ∈ ws, w ≠ [] ∧ ∀ c ∈ w, isSpaceChar c = false) :
    ∃ ws2, words (joinSpace ws ++ [q]) = ws2 ∧
      joinSpace ws2 = joinSpace ws ++ [q] := by
  induction ws with
  | nil => exact absurd rfl hne
  | cons w ws ih =>
    have hw := h w (List.mem_cons_self w ws)
    cases ws with
    | nil =>
      refine ⟨[w ++ [q]], ?_, by simp [joinSpace]⟩
      have hkeep : ∀ c ∈ w ++ [q], (fun c => !(isSpaceChar c)) c = true := by
        intro c hc
        rcases List.mem_append.mp hc with hc | hc
        · simp [hw.2 c hc]
        · rcases List.mem_singleton.mp hc with rfl
          simp [hq]
      have hjoin : joinSpace [w] ++ [q] = (w ++ [q]) ++ [] := by
        simp [joinSpace]
      unfold words
      rw [hjoin, runsP_word_split _ (w ++ [q]) [] (by simp) hkeep (Or.inl rfl)]
      rfl
    | cons w2 ws2 =>
      obtain ⟨ws3, hw3, hj3⟩ := ih (by simp)
        (fun v hv => h v (List.mem_cons_of_mem w hv))
      have hkeepw : ∀ c ∈ w, (fun c => !(isSpaceChar c)) c = true :=
        fun c hc => by simp [hw.2 c hc]
      have hne3 : ws3 ≠ [] := by
        intro h0
        rw [h0] at hj3
        exact absurd hj3.symm (by simp [joinSpace])
      refine ⟨w :: ws3, ?_, ?_⟩
      · unfold words
        rw [joinSpace_cons_ne w (w2 :: ws2) (by simp), List.append_assoc,
          List.cons_append]
        rw [runsP_word_split _ w _ hw.1 hkeepw (Or.inr ⟨' ', _, rfl, by decide⟩)]
        rw [runsP_skip _ ' ' _ (by decide)]
        unfold words at hw3
        rw [hw3]
      · rw [joinSpace_cons_ne w ws3 hne3, hj3,
          joinSpace_cons_ne w (w2 :: ws2) (by simp)]
        simp [List.append_assoc]

/-- Wrapping a join of good words in one non-space character on each side
leaves it collapsed. -/
theorem collapse_join_wrap (q : Char) (hq : isSpaceChar q = false)
    (ws : List (List Char))
    (h : ∀ w ∈ ws, w ≠ [] ∧ ∀ c ∈ w, isSpaceChar c = false) :
    collapse (q :: joinSpace ws ++ [q]) = q :: joinSpace ws ++ [q] := by
  cases ws with
  | nil =>
    have hkeep : ∀ c ∈ [q, q], (fun c => !(isSpaceChar c)) c = true := by
      intro c hc
      rcases List.mem_cons.mp hc with rfl | hc
      · simp [hq]
      · rcases List.mem_singleton.mp hc with rfl
        simp [hq]
    unfold collapse words
    rw [show (q :: joinSpace [] ++ [q]) = [q, q] ++ [] from rfl]
    rw [runsP_word_split _ [q, q] [] (by simp) hkeep (Or.inl rfl)]
    rfl
  | cons w ws' =>
    have hw := h w (List.mem_cons_self w ws')
    cases ws' with
    | nil =>
      have hkeep : ∀ c ∈ q :: w ++ [q], (fun c => !(isSpaceChar c)) c = true := by
        intro c hc
        rcases List.mem_cons.mp hc with rfl | hc
        · simp [hq]
        · rcases List.mem_append.mp hc with hc | hc
          · simp [hw.2 c hc]
          · rcases List.mem_singleton.mp hc with rfl
            simp [hq]
      unfold collapse words
      rw [show (q :: joinSpace [w] ++ [q]) = (q :: w ++ [q]) ++ [] by
        simp [joinSpace]]
      rw [runsP_word_split _ (q :: w ++ [q]) [] (by simp) hkeep (Or.inl rfl)]
      rw [show runsP (fun c => !(isSpaceChar c)) ([] : List Char) = [] from rfl]
      simp [joinSpace]
    | cons w2 ws2 =>
      obtain ⟨ws3, hw3, hj3⟩ := words_join_append_last q hq (w2 :: ws2)
        (by simp) (fun v hv => h v (List.mem_cons_of_mem w hv))
      have hkeepqw : ∀ c ∈ q :: w, (fun c => !(isSpaceChar c)) c = true := by
        intro c hc
        rcases List.mem_cons.mp hc with rfl | hc
        · simp [hq]
        · simp [hw.2 c hc]
      have hne3 : ws3 ≠ [] := by
        intro h0
        rw [h0] at hj3
        exact absurd hj3.symm (by simp [joinSpace])
      have hsplit : (q :: joinSpace (w :: w2 :: ws2) ++ [q]) =
          (q :: w) ++ ' ' :: (joinSpace (w2 :: ws2) ++ [q]) := by
        rw [joinSpace_cons_ne w (w2 :: ws2) (by simp)]
        simp
      unfold collapse words
      rw [hsplit]
      rw [runsP_word_split _ (q :: w) _ (by simp) hkeepqw
        (Or.inr ⟨' ', _, rfl, by decide⟩)]
      rw [runsP_skip _ ' ' _ (by decide)]
      unfold words at hw3
      rw [hw3]
      rw [joinSpace_cons_ne (q :: w) ws3 hne3, hj3]

/-- A collapsed string that is not quote-wrapped is a fixed point of
`normalize_search_query`. -/
theorem normalize_of_collapsed_unwrapped (m : List Char)
    (hc : collapse m = m) (hw : isWrappedInQuotes m = false) :
    normalize_search_query m = m := by
  unfold normalize_search_query
  dsimp only
  rw [hc, if_neg (by simp [hw])]

/-- Wrapping a collapsed string in one non-space character on each side
leaves it collapsed. -/
theorem collapse_wrap (q : Char) (hq : isSpaceChar q = false) (n : List Char)
    (hn : collapse n = n) :
    collapse (q :: n ++ [q]) = q :: n ++ [q] := by
  have h := collapse_join_wrap q hq (words n) (words_good n)
  rwa [show joinSpace (words n) = n from hn] at h

/-- Wrapping any normalized query once in a matching pair of quote characters
and normalizing again returns the original normalized query. -/
theorem normalize_wrap (r : List Char) (q : Char)
    (hq : q = '"' ∨ q = Char.ofNat 39) :
    normalize_search_query (q :: normalize_search_query r ++ [q]) =
      normalize_search_query r := by
  have hqs : isSpaceChar q = false := by
    rcases hq with rfl | rfl <;> decide
  have hcn : collapse (normalize_search_query r) = normalize_search_query r :=
    collapse_normalize r
  have hcw := collapse_wrap q hqs (normalize_search_query r) hcn
  have hcont : q ∈ WRAPPING_QUOTES := by
    rcases hq with rfl | rfl <;> decide
  have hlast : (q :: normalize_search_query r ++ [q]).getLastI = q :=
    getLastI_concat (q :: normalize_search_query r) q
  have hwrap : isWrappedInQuotes (q :: normalize_search_query r ++ [q]) = true := by
    unfold isWrappedInQuotes
    rw [hlast]
    simp [hcont]
  have hstrip : (((q :: normalize_search_query r ++ [q]).drop 1).dropLast) =
      normalize_search_query r := by
    simp
  set n := normalize_search_query r with hdefn
  unfold normalize_search_query
  dsimp only
  rw [hcw, if_pos hwrap, hstrip, hcn]

/-- Counterexample for C9: the doubly-quoted query `''a''` (apostrophes,
code point 39) is stripped one layer per call, so normalizing its
normalization differs from its normalization — `normalize_search_query` is
not idempotent. -/
theorem normalize_search_query_not_idempotent_cex :
    normalize_search_query (normalize_search_query
      [Char.ofNat 39, Char.ofNat 39, 'a', Char.ofNat 39, Char.ofNat 39]) ≠
    normalize_search_query
      [Char.ofNat 39, Char.ofNat 39, 'a', Char.ofNat 39, Char.ofNat 39] := by
  decide

/-- Amended C9: normalization is idempotent on every query whose normal form
is not itself wrapped in a matching pair of quote characters (the quote strip
runs at most once per call, so a doubly-wrapped query loses one layer per
pass); and wrapping any normalized query once in a matching pair of quote
characters and normalizing returns the original normalized query. -/
theorem normalize_search_query_props (r : List Char) :
    (isWrappedInQuotes (normalize_search_query r) = false →
      normalize_search_query (normalize_search_query r) =
        normalize_search_query r)
    ∧ ∀ q, q = '"' ∨ q = Char.ofNat 39 →
      normalize_search_query (q :: normalize_search_query r ++ [q]) =
        normalize_search_query r :=
  ⟨fun h => normalize_of_collapsed_unwrapped _ (collapse_normalize r) h,
   fun q hq => normalize_wrap r q hq⟩

/-- Witness for C9: the already-normalized query `a b` is unchanged by a
second normalization, and wrapping it in double quotes and normalizing
returns it. -/
theorem normalize_search_query_props_witness :
    normalize_search_query (normalize_search_query ['a', ' ', 'b']) =
      normalize_search_query ['a', ' ', 'b']
    ∧ normalize_search_query
        ('"' :: normalize_search_query ['a', ' ', 'b'] ++ ['"']) =
      normalize_search_query ['a', ' ', 'b'] :=
  ⟨(normalize_search_query_props ['a', ' ', 'b']).1 (by decide),
   (normalize_search_query_props ['a', ' ', 'b']).2 '"' (Or.inl rfl)⟩
